import Mathlib

/-!
Verification development for the Bybit stream-to-disk recorder
(`bybit_websocket_listener.py` and companions).

The definitions below are a shallow embedding of the source:
  * `processQueueStep` / `processQueueRun` embed the per-topic loop
    `process_queue` together with `write_buffer_to_file` (which swallows
    its own exceptions); write outcomes are supplied as oracle booleans
    on each event, `true` meaning the append succeeded.
  * `connDelays` embeds the reconnect backoff of `connect_and_listen`.
  * `compressOldCsvFilesPass` embeds one pass of `compress_old_csv_files`
    over a directory snapshot (filenames), and `compressAndRemoveFile`
    embeds `compress_and_remove_file` with its nested exception handling.
  * `enforcePass` / `deleteFilesLoop` embed `enforce_folder_size_limit`.
  * `routeFrame` embeds the topic dispatch in `connect_and_listen`.
-/

namespace Bybit

/-! ### Python string-join, of "\n".join(buffer) -/

/-- Python `sep.join(xs)`. -/
def pyJoin (sep : String) : List String → String
  | [] => ""
  | [a] => a
  | a :: b :: rest => a ++ sep ++ pyJoin sep (b :: rest)

/-- Newline-terminated serialization of a record list: each record
followed by a newline, in order. -/
def nlSerialize : List String → String
  | [] => ""
  | r :: rs => r ++ "\n" ++ nlSerialize rs

/-- Content of one `write_buffer_to_file` call: `"\n".join(buffer) + "\n"`. -/
def writeContent (buf : List String) : String :=
  pyJoin "\n" buf ++ "\n"

theorem writeContent_eq_nlSerialize (buf : List String) (h : buf ≠ []) :
    writeContent buf = nlSerialize buf := by
  induction buf with
  | nil => cases h rfl
  | cons a rest ih =>
    cases rest with
    | nil => simp [writeContent, pyJoin, nlSerialize]
    | cons b t =>
      have := ih (by simp)
      simp only [writeContent, pyJoin, nlSerialize] at *
      rw [String.append_assoc, String.append_assoc, this]
      exact (String.append_assoc a "\n" (b ++ "\n" ++ nlSerialize t)).symm

theorem nlSerialize_append (l₁ l₂ : List String) :
    nlSerialize (l₁ ++ l₂) = nlSerialize l₁ ++ nlSerialize l₂ := by
  induction l₁ with
  | nil => simp [nlSerialize]
  | cons a t ih =>
    simp only [List.cons_append, List.append_eq, nlSerialize, ih,
      String.append_assoc]

/-! ### Topic Buffer: `process_queue` / `write_buffer_to_file` -/

/-- Per-topic configuration: `BUFFER_LIMIT` and the path ingredients of
`process_queue` (topic string and derived topic folder). -/
structure TBConfig where
  bufferLimit : Nat
  topic : String
  topicFolder : String
deriving DecidableEq

/-- `os.path.join(topic_folder, f"{date}_{topic}.csv")`. -/
def csvPath (cfg : TBConfig) (date : String) : String :=
  cfg.topicFolder ++ "/" ++ date ++ "_" ++ cfg.topic ++ ".csv"

/-- State of one `process_queue` loop.  `R` is the type of serialized
records (the strings produced by `json.dumps`); keeping it a parameter
lets proofs attach ghost data (such as the arrival date) to records.
`folderSize` is the global `current_folder_size` counter, carried here to
record that the write path never touches it. -/
structure TBState (R : Type) where
  lastDate : String
  buffer : List R
  writes : List (String × List R)
  folderSize : Int
deriving DecidableEq

/-- One iteration of the `while True` loop: either a record was dequeued
within the write-interval (`msg`), or `asyncio.wait_for` timed out
(`timeout`).  `date` is the value of `get_current_utc_date()` observed at
the top of the iteration.  `okRoll` and `okWrite` are the outcomes of the
(up to two) `write_buffer_to_file` calls of the iteration: the rollover
flush and the in-branch flush. -/
inductive TBEvent (R : Type) where
  | msg (date : String) (r : R) (okRoll okWrite : Bool)
  | timeout (date : String) (okRoll okWrite : Bool)
deriving DecidableEq

/-- `write_buffer_to_file` followed by the caller's `buffer.clear()`:
on success the batch is appended to the file (recorded in `writes`); on
failure the exception is caught inside `write_buffer_to_file`, nothing is
appended, and the caller still clears the buffer. -/
def writeBufferToFile {R : Type} (s : TBState R) (path : String) (ok : Bool) :
    TBState R :=
  { s with
    writes := if ok then s.writes ++ [(path, s.buffer)] else s.writes
    buffer := [] }

/-- The date-rollover prologue of each iteration: if the observed date
differs from `last_utc_date`, flush a non-empty buffer to the old date's
file, then update `last_utc_date`. -/
def rolloverCheck {R : Type} (cfg : TBConfig) (date : String) (ok : Bool)
    (s : TBState R) : TBState R :=
  if date = s.lastDate then s
  else if s.buffer.isEmpty then { s with lastDate := date }
  else { writeBufferToFile s (csvPath cfg s.lastDate) ok with lastDate := date }

/-- One full iteration of `process_queue`. -/
def processQueueStep {R : Type} (cfg : TBConfig) (s : TBState R)
    (e : TBEvent R) : TBState R :=
  match e with
  | .msg date r okRoll okWrite =>
    let s1 := rolloverCheck cfg date okRoll s
    let s2 := { s1 with buffer := s1.buffer ++ [r] }
    if cfg.bufferLimit ≤ s2.buffer.length then
      writeBufferToFile s2 (csvPath cfg date) okWrite
    else s2
  | .timeout date okRoll okWrite =>
    let s1 := rolloverCheck cfg date okRoll s
    if s1.buffer.isEmpty then s1
    else writeBufferToFile s1 (csvPath cfg date) okWrite

/-- A run of the loop over a finite schedule of iterations. -/
def processQueueRun {R : Type} (cfg : TBConfig) (s : TBState R)
    (es : List (TBEvent R)) : TBState R :=
  es.foldl (processQueueStep cfg) s

/-- Initial loop state: `last_utc_date` initialized to the current date,
empty buffer, no writes yet. -/
def initTB (R : Type) (d0 : String) (folderSize : Int) : TBState R :=
  ⟨d0, [], [], folderSize⟩

/-- Records delivered by a schedule, in arrival order. -/
def arrivals {R : Type} : List (TBEvent R) → List R
  | [] => []
  | .msg _ r _ _ :: es => r :: arrivals es
  | .timeout _ _ _ :: es => arrivals es

/-- Both write outcomes of an iteration succeeded. -/
def eventOk {R : Type} : TBEvent R → Bool
  | .msg _ _ okRoll okWrite => okRoll && okWrite
  | .timeout _ okRoll okWrite => okRoll && okWrite

/-- No-failure schedule: every write attempted during the run succeeds. -/
def noFail {R : Type} (es : List (TBEvent R)) : Prop :=
  es.all eventOk = true

/-- All records of all successful writes, in flush order. -/
def flatWrites {R : Type} : List (String × List R) → List R
  | [] => []
  | w :: ws => w.2 ++ flatWrites ws

/-- Concatenation of the file contents of all successful writes, in
flush order. -/
def concatWrites : List (String × List String) → String
  | [] => ""
  | w :: ws => writeContent w.2 ++ concatWrites ws

theorem flatWrites_append {R : Type} (l₁ l₂ : List (String × List R)) :
    flatWrites (l₁ ++ l₂) = flatWrites l₁ ++ flatWrites l₂ := by
  induction l₁ with
  | nil => simp [flatWrites]
  | cons w t ih => simp [flatWrites, ih]

theorem concatWrites_append (l₁ l₂ : List (String × List String)) :
    concatWrites (l₁ ++ l₂) = concatWrites l₁ ++ concatWrites l₂ := by
  induction l₁ with
  | nil => simp [concatWrites]
  | cons w t ih => simp only [List.cons_append, List.append_eq, concatWrites,
      ih, String.append_assoc]

theorem concatWrites_eq_nlSerialize (ws : List (String × List String))
    (h : ∀ w ∈ ws, w.2 ≠ []) :
    concatWrites ws = nlSerialize (flatWrites ws) := by
  induction ws with
  | nil => simp [concatWrites, flatWrites, nlSerialize]
  | cons w t ih =>
    have h1 : w.2 ≠ [] := h w (by simp)
    have h2 : ∀ x ∈ t, x.2 ≠ [] := fun x hx => h x (by simp [hx])
    simp only [concatWrites, flatWrites, nlSerialize_append, ih h2,
      writeContent_eq_nlSerialize w.2 h1]

/-- Records appended by a single event. -/
def recordsOf {R : Type} : TBEvent R → List R
  | .msg _ r _ _ => [r]
  | .timeout _ _ _ => []

theorem arrivals_cons {R : Type} (e : TBEvent R) (es : List (TBEvent R)) :
    arrivals (e :: es) = recordsOf e ++ arrivals es := by
  cases e <;> simp [arrivals, recordsOf]

theorem writeBufferToFile_flat {R : Type} (s : TBState R) (p : String) :
    flatWrites (writeBufferToFile s p true).writes
      ++ (writeBufferToFile s p true).buffer
      = flatWrites s.writes ++ s.buffer := by
  simp [writeBufferToFile, flatWrites_append, flatWrites]

theorem rolloverCheck_flat {R : Type} (cfg : TBConfig) (d : String)
    (s : TBState R) :
    flatWrites (rolloverCheck cfg d true s).writes
      ++ (rolloverCheck cfg d true s).buffer
      = flatWrites s.writes ++ s.buffer := by
  unfold rolloverCheck
  split_ifs with h1 h2
  · rfl
  · simp_all [List.isEmpty_iff]
  · simpa using writeBufferToFile_flat s (csvPath cfg s.lastDate)

theorem processQueueStep_flat {R : Type} (cfg : TBConfig) (s : TBState R)
    (e : TBEvent R) (hok : eventOk e = true) :
    flatWrites (processQueueStep cfg s e).writes
      ++ (processQueueStep cfg s e).buffer
      = flatWrites s.writes ++ s.buffer ++ recordsOf e := by
  cases e with
  | msg date r okRoll okWrite =>
    simp only [eventOk, Bool.and_eq_true] at hok
    obtain ⟨h1, h2⟩ := hok
    subst h1; subst h2
    have hroll := rolloverCheck_flat cfg date s
    simp only [processQueueStep, recordsOf]
    split_ifs with hlim
    · rw [writeBufferToFile_flat]
      simp only [List.append_nil]
      rw [← List.append_assoc, hroll]
    · simp only []
      rw [← List.append_assoc, hroll]
  | timeout date okRoll okWrite =>
    simp only [eventOk, Bool.and_eq_true] at hok
    obtain ⟨h1, h2⟩ := hok
    subst h1; subst h2
    have hroll := rolloverCheck_flat cfg date s
    simp only [processQueueStep, recordsOf, List.append_nil]
    split_ifs with hempty
    · exact hroll
    · rw [writeBufferToFile_flat]; exact hroll

/-- Conservation of records: after any no-failure run, the records of the
successful writes (in flush order) followed by the still-pending buffer
are exactly the starting contents followed by the arrivals, in order. -/
theorem processQueueRun_flat {R : Type} (cfg : TBConfig)
    (es : List (TBEvent R)) :
    ∀ s : TBState R, noFail es →
      flatWrites (processQueueRun cfg s es).writes
        ++ (processQueueRun cfg s es).buffer
        = flatWrites s.writes ++ s.buffer ++ arrivals es := by
  induction es with
  | nil => intro s _; simp [processQueueRun, arrivals]
  | cons e t ih =>
    intro s hnf
    simp only [noFail, List.all_cons, Bool.and_eq_true] at hnf
    obtain ⟨hok, ht⟩ := hnf
    have step := processQueueStep_flat cfg s e hok
    simp only [processQueueRun, List.foldl_cons]
    rw [show List.foldl (processQueueStep cfg) (processQueueStep cfg s e) t
        = processQueueRun cfg (processQueueStep cfg s e) t from rfl]
    rw [ih (processQueueStep cfg s e) ht, step, arrivals_cons]
    simp [List.append_assoc]

/-- Every write the loop ever performs carries a non-empty batch: each of
the three flush sites is guarded by (or implies) a non-empty buffer. -/
theorem processQueueStep_batches {R : Type} (cfg : TBConfig) (s : TBState R)
    (e : TBEvent R) (h : ∀ w ∈ s.writes, w.2 ≠ []) :
    ∀ w ∈ (processQueueStep cfg s e).writes, w.2 ≠ [] := by
  have hroll : ∀ (d : String) (ok : Bool),
      ∀ w ∈ (rolloverCheck cfg d ok s).writes, w.2 ≠ [] := by
    intro d ok
    unfold rolloverCheck
    split_ifs with h1 h2
    · exact h
    · exact h
    · simp only [writeBufferToFile]
      split_ifs with hok
      · intro w hw
        rcases List.mem_append.mp hw with hin | hin
        · exact h w hin
        · simp only [List.mem_singleton] at hin
          subst hin
          simpa [List.isEmpty_iff] using h2
      · exact h
  cases e with
  | msg date r okRoll okWrite =>
    simp only [processQueueStep]
    split_ifs with hlim
    · simp only [writeBufferToFile]
      split_ifs with hok
      · intro w hw
        rcases List.mem_append.mp hw with hin | hin
        · exact hroll date okRoll w hin
        · simp only [List.mem_singleton] at hin
          subst hin; simp
      · exact hroll date okRoll
    · exact hroll date okRoll
  | timeout date okRoll okWrite =>
    simp only [processQueueStep]
    split_ifs with hempty
    · exact hroll date okRoll
    · simp only [writeBufferToFile]
      split_ifs with hok
      · intro w hw
        rcases List.mem_append.mp hw with hin | hin
        · exact hroll date okRoll w hin
        · simp only [List.mem_singleton] at hin
          subst hin
          simpa [List.isEmpty_iff] using hempty
      · exact hroll date okRoll

theorem processQueueRun_batches {R : Type} (cfg : TBConfig)
    (es : List (TBEvent R)) :
    ∀ s : TBState R, (∀ w ∈ s.writes, w.2 ≠ []) →
      ∀ w ∈ (processQueueRun cfg s es).writes, w.2 ≠ [] := by
  induction es with
  | nil => intro s h; exact h
  | cons e t ih =>
    intro s h
    exact ih (processQueueStep cfg s e) (processQueueStep_batches cfg s e h)

/-! ### Date-tagged records, for the rollover invariant -/

/-- A serialized record tagged (as ghost data) with the UTC date observed
by the loop iteration in which it arrived. -/
def DRec : Type := String × String

instance : DecidableEq DRec := instDecidableEqProd

/-- The ghost tag of a `msg` event agrees with the date its iteration
observed; `timeout` events carry no record. -/
def eventDated : TBEvent DRec → Bool
  | .msg d r _ _ => r.1 == d
  | .timeout _ _ _ => true

/-- Every record in the schedule is tagged with its arrival date. -/
def wellDated (es : List (TBEvent DRec)) : Prop :=
  es.all eventDated = true

/-- The datedness invariant: pending records arrived under `lastDate`, and
each performed write went to the csv file of the date all its records
arrived under. -/
def DatesOk (cfg : TBConfig) (s : TBState DRec) : Prop :=
  (∀ r ∈ s.buffer, r.1 = s.lastDate) ∧
  (∀ w ∈ s.writes, ∃ d, w.1 = csvPath cfg d ∧ ∀ r ∈ w.2, r.1 = d)

theorem rolloverCheck_lastDate {R : Type} (cfg : TBConfig) (d : String)
    (ok : Bool) (s : TBState R) : (rolloverCheck cfg d ok s).lastDate = d := by
  unfold rolloverCheck
  split_ifs with h1 h2
  · exact h1.symm
  · rfl
  · rfl

theorem rolloverCheck_datesOk (cfg : TBConfig) (d : String) (ok : Bool)
    (s : TBState DRec) (h : DatesOk cfg s) :
    DatesOk cfg (rolloverCheck cfg d ok s) := by
  obtain ⟨hbuf, hw⟩ := h
  unfold rolloverCheck
  split_ifs with h1 h2
  · exact ⟨hbuf, hw⟩
  · refine ⟨?_, hw⟩
    intro r hr
    rw [List.isEmpty_iff] at h2
    simp [h2] at hr
  · constructor
    · intro r hr
      simp [writeBufferToFile] at hr
    · simp only [writeBufferToFile]
      split_ifs with hok
      · intro w hwmem
        rcases List.mem_append.mp hwmem with hin | hin
        · exact hw w hin
        · simp only [List.mem_singleton] at hin
          subst hin
          exact ⟨s.lastDate, rfl, hbuf⟩
      · exact hw

theorem processQueueStep_datesOk (cfg : TBConfig) (s : TBState DRec)
    (e : TBEvent DRec) (hd : eventDated e = true) (h : DatesOk cfg s) :
    DatesOk cfg (processQueueStep cfg s e) := by
  cases e with
  | msg date r okRoll okWrite =>
    simp only [eventDated, beq_iff_eq] at hd
    have hroll := rolloverCheck_datesOk cfg date okRoll s h
    have hlast := rolloverCheck_lastDate cfg date okRoll s
    obtain ⟨hbuf1, hw1⟩ := hroll
    have hbuf2 : ∀ x ∈ (rolloverCheck cfg date okRoll s).buffer ++ [r],
        x.1 = date := by
      intro x hx
      rcases List.mem_append.mp hx with hin | hin
      · rw [hbuf1 x hin, hlast]
      · simp only [List.mem_singleton] at hin
        subst hin; exact hd
    simp only [processQueueStep]
    split_ifs with hlim
    · constructor
      · intro x hx
        simp [writeBufferToFile] at hx
      · simp only [writeBufferToFile]
        split_ifs with hok
        · intro w hwmem
          rcases List.mem_append.mp hwmem with hin | hin
          · exact hw1 w hin
          · simp only [List.mem_singleton] at hin
            subst hin
            exact ⟨date, rfl, hbuf2⟩
        · exact hw1
    · refine ⟨?_, hw1⟩
      intro x hx
      simp only at hx
      rw [hbuf2 x hx, hlast]
  | timeout date okRoll okWrite =>
    have hroll := rolloverCheck_datesOk cfg date okRoll s h
    have hlast := rolloverCheck_lastDate cfg date okRoll s
    obtain ⟨hbuf1, hw1⟩ := hroll
    simp only [processQueueStep]
    split_ifs with hempty
    · exact ⟨hbuf1, hw1⟩
    · constructor
      · intro x hx
        simp [writeBufferToFile] at hx
      · simp only [writeBufferToFile]
        split_ifs with hok
        · intro w hwmem
          rcases List.mem_append.mp hwmem with hin | hin
          · exact hw1 w hin
          · simp only [List.mem_singleton] at hin
            subst hin
            refine ⟨date, rfl, ?_⟩
            intro x hx
            rw [hbuf1 x hx, hlast]
        · exact hw1

theorem processQueueRun_datesOk (cfg : TBConfig) (es : List (TBEvent DRec)) :
    ∀ s : TBState DRec, wellDated es → DatesOk cfg s →
      DatesOk cfg (processQueueRun cfg s es) := by
  induction es with
  | nil => intro s _ h; exact h
  | cons e t ih =>
    intro s hwd h
    simp only [wellDated, List.all_cons, Bool.and_eq_true] at hwd
    exact ih (processQueueStep cfg s e) hwd.2
      (processQueueStep_datesOk cfg s e hwd.1 h)

/-! ### Sample configuration and schedules for witnesses -/

/-- The topic of the spec's running example, with the default
`BUFFER_LIMIT` of 100. -/
def cfg0 : TBConfig :=
  ⟨100, "orderbook.1.BTCUSDT", "bybit_stream_data/linear/BTCUSDT/orderbook.1"⟩

def demoC1 : List (TBEvent String) :=
  [.msg "2024-01-01" "A" true true, .msg "2024-01-01" "B" true true,
   .timeout "2024-01-01" true true]

def demoC2 : List (TBEvent DRec) :=
  [.msg "2024-01-01" ("2024-01-01", "A") true true,
   .msg "2024-01-02" ("2024-01-02", "B") true true,
   .timeout "2024-01-02" true true]

/-! ### C1 -/

/-- C1: for every finite schedule of records delivered to one topic
buffer, if every write succeeds and the run ends with the pending buffer
drained (as after any trailing idle timeout), then the concatenation of
the flushed file contents in flush order is exactly the arrival-order
newline-delimited serialization of the delivered records: no loss, no
duplication, no reordering. -/
theorem topicBuffer_flush_stream_faithful (cfg : TBConfig) (d0 : String)
    (es : List (TBEvent String)) (h1 : noFail es)
    (h2 : (processQueueRun cfg (initTB String d0 0) es).buffer = []) :
    concatWrites (processQueueRun cfg (initTB String d0 0) es).writes
      = nlSerialize (arrivals es) := by
  have hflat := processQueueRun_flat cfg es (initTB String d0 0) h1
  have hb := processQueueRun_batches cfg es (initTB String d0 0)
    (by intro w hw; simp [initTB] at hw)
  rw [concatWrites_eq_nlSerialize _ hb]
  rw [h2, List.append_nil] at hflat
  simp only [initTB, flatWrites, List.nil_append] at hflat
  simp only [initTB]
  rw [hflat]

theorem topicBuffer_flush_stream_faithful_witness :
    noFail demoC1
    ∧ (processQueueRun cfg0 (initTB String "2024-01-01" 0) demoC1).buffer = []
    ∧ concatWrites
        (processQueueRun cfg0 (initTB String "2024-01-01" 0) demoC1).writes
        = nlSerialize (arrivals demoC1) :=
  ⟨by rfl, by decide,
   topicBuffer_flush_stream_faithful cfg0 "2024-01-01" demoC1
     (by rfl) (by decide)⟩

/-! ### C2 -/

/-- C2: on a date rollover the full pending buffer is flushed to the
previous date's file before anything is buffered under the new date.
Consequently (first conjunct) every flushed batch went to the csv file of
the date under which all of its records arrived — records from before a
boundary only to the prior date's file, records from after only to the
new date's file — and (second conjunct) over a no-failure run the flushed
records followed by the still-pending ones are exactly the arrivals in
order, so no record is duplicated across the two files. -/
theorem dateRollover_partitions_by_date (cfg : TBConfig) (d0 : String)
    (es : List (TBEvent DRec)) (h1 : wellDated es) (h2 : noFail es) :
    (∀ w ∈ (processQueueRun cfg (initTB DRec d0 0) es).writes,
        ∃ d, w.1 = csvPath cfg d ∧ ∀ r ∈ w.2, r.1 = d)
    ∧ flatWrites (processQueueRun cfg (initTB DRec d0 0) es).writes
        ++ (processQueueRun cfg (initTB DRec d0 0) es).buffer
        = arrivals es := by
  constructor
  · refine (processQueueRun_datesOk cfg es _ h1 ?_).2
    constructor
    · intro r hr; simp [initTB] at hr
    · intro w hw; simp [initTB] at hw
  · have hflat := processQueueRun_flat cfg es (initTB DRec d0 0) h2
    simpa only [initTB, flatWrites, List.nil_append] using hflat

theorem dateRollover_partitions_by_date_witness :
    wellDated demoC2 ∧ noFail demoC2
    ∧ ((∀ w ∈ (processQueueRun cfg0 (initTB DRec "2024-01-01" 0)
            demoC2).writes,
          ∃ d, w.1 = csvPath cfg0 d ∧ ∀ r ∈ w.2, r.1 = d)
      ∧ flatWrites (processQueueRun cfg0 (initTB DRec "2024-01-01" 0)
            demoC2).writes
          ++ (processQueueRun cfg0 (initTB DRec "2024-01-01" 0)
              demoC2).buffer
          = arrivals demoC2) :=
  ⟨by rfl, by rfl,
   dateRollover_partitions_by_date cfg0 "2024-01-01" demoC2
     (by rfl) (by rfl)⟩

/-! ### C3 -/

/-- C3 counterexample: one record arrives, then the idle-timeout flush
fails (`write_buffer_to_file` swallows the exception).  The claim says
the record stays in `pending` and is rewritten on the next cycle; in the
code `buffer.clear()` runs unconditionally after the failed write, so the
pending buffer is empty and nothing was ever written — the record is
gone. -/
theorem flushFailure_drops_records :
    (processQueueRun cfg0 (initTB String "2024-01-01" 0)
        [.msg "2024-01-01" "A" true true,
         .timeout "2024-01-01" true false]).buffer = []
    ∧ (processQueueRun cfg0 (initTB String "2024-01-01" 0)
        [.msg "2024-01-01" "A" true true,
         .timeout "2024-01-01" true false]).writes = [] := by
  constructor <;> rfl

/-- C3 amended: a failed idle-timeout flush does not keep the batch for a
retry: `process_queue` clears the pending buffer unconditionally after
the write attempt, so the batch is dropped (nothing is appended to
`writes`) and the loop simply continues. -/
theorem flushFailure_clears_pending {R : Type} (cfg : TBConfig)
    (s : TBState R) (date : String) (okRoll : Bool)
    (h1 : s.lastDate = date) (h2 : s.buffer.isEmpty = false) :
    (processQueueStep cfg s (.timeout date okRoll false)).buffer = []
    ∧ (processQueueStep cfg s (.timeout date okRoll false)).writes
        = s.writes := by
  simp [processQueueStep, rolloverCheck, h1, h2, writeBufferToFile]

theorem flushFailure_clears_pending_witness :
    (⟨"2024-01-01", ["A"], [], 0⟩ : TBState String).lastDate = "2024-01-01"
    ∧ (⟨"2024-01-01", ["A"], [], 0⟩ : TBState String).buffer.isEmpty = false
    ∧ ((processQueueStep cfg0 ⟨"2024-01-01", ["A"], [], 0⟩
          (.timeout "2024-01-01" true false)).buffer = []
      ∧ (processQueueStep cfg0 ⟨"2024-01-01", ["A"], [], 0⟩
          (.timeout "2024-01-01" true false)).writes = []) :=
  ⟨rfl, rfl,
   flushFailure_clears_pending cfg0 ⟨"2024-01-01", ["A"], [], 0⟩
     "2024-01-01" true rfl rfl⟩

/-! ### Connection Supervisor: reconnect backoff of `connect_and_listen` -/

/-- `RECONNECT_INITIAL_BACKOFF_SEC` default. -/
def RECONNECT_INITIAL_BACKOFF : Nat := 1

/-- `RECONNECT_MAX_BACKOFF_SEC` default. -/
def RECONNECT_MAX_BACKOFF : Nat := 60

/-- Outcome of one pass of the `while True` loop in `connect_and_listen`:
either the connection was established (the `backoff = RECONNECT_INITIAL_BACKOFF`
reset line runs) or an exception was raised (the handler sleeps `backoff`
seconds, then doubles it, capped). -/
inductive ConnEvent where
  | connected
  | connectionLost
deriving DecidableEq

/-- The sleep delays, in seconds and in order, produced by a sequence of
connection outcomes starting from backoff value `b`. -/
def connDelays (b : Nat) : List ConnEvent → List Nat
  | [] => []
  | .connected :: es => connDelays RECONNECT_INITIAL_BACKOFF es
  | .connectionLost :: es =>
      b :: connDelays (min (b * 2) RECONNECT_MAX_BACKOFF) es

theorem connDelays_replicate_lost (k j : Nat) :
    connDelays (min (2 ^ j) RECONNECT_MAX_BACKOFF)
        (List.replicate k ConnEvent.connectionLost)
      = (List.range k).map
          (fun i => min (2 ^ (j + i)) RECONNECT_MAX_BACKOFF) := by
  induction k generalizing j with
  | zero => simp [connDelays]
  | succ n ih =>
    have hdouble : min (min (2 ^ j) RECONNECT_MAX_BACKOFF * 2)
        RECONNECT_MAX_BACKOFF = min (2 ^ (j + 1)) RECONNECT_MAX_BACKOFF := by
      rcases le_total (2 ^ j) RECONNECT_MAX_BACKOFF with h | h
      · rw [min_eq_left h, pow_succ]
      · have h2 : RECONNECT_MAX_BACKOFF ≤ 2 ^ (j + 1) :=
          le_trans h (Nat.pow_le_pow_right (by norm_num) (by omega))
        rw [min_eq_right h, min_eq_right h2, min_eq_right (by omega)]
    rw [List.replicate_succ]
    simp only [connDelays, hdouble, ih (j + 1)]
    rw [List.range_succ_eq_map]
    simp only [List.map_cons, List.map_map, Nat.add_zero]
    refine congrArg (List.cons _) (List.map_congr_left ?_)
    intro i _
    simp only [Function.comp_apply]
    congr 2
    omega

/-! ### C4 -/

/-- C4: in `connect_and_listen` the delays slept during `k` consecutive
failures that follow a successful connection are exactly
`min(1 * 2^(i), 60)` seconds for `i = 0, …, k-1` — i.e. the delay before
the `k`-th reconnect attempt is `min(floor * 2^(k-1), ceiling)` with
floor `RECONNECT_INITIAL_BACKOFF = 1` and ceiling
`RECONNECT_MAX_BACKOFF = 60` — regardless of the backoff value `b0`
accumulated before the success (the success resets it to the floor); the
same closed form holds for failures counted from process start, where
backoff also begins at the floor. -/
theorem reconnectBackoff_doubles_capped_resets (b0 k : Nat) :
    connDelays b0
        (ConnEvent.connected :: List.replicate k ConnEvent.connectionLost)
      = (List.range k).map (fun i => min (2 ^ i) RECONNECT_MAX_BACKOFF)
    ∧ connDelays RECONNECT_INITIAL_BACKOFF
        (List.replicate k ConnEvent.connectionLost)
      = (List.range k).map (fun i => min (2 ^ i) RECONNECT_MAX_BACKOFF) := by
  have h0 : RECONNECT_INITIAL_BACKOFF
      = min (2 ^ 0) RECONNECT_MAX_BACKOFF := by decide
  have h := connDelays_replicate_lost k 0
  simp only [Nat.zero_add] at h
  constructor
  · simp only [connDelays, h0, h]
  · rw [h0, h]

/-! ### Message Router: topic dispatch in `connect_and_listen` -/

/-- Where one structurally valid inbound frame ends up. -/
inductive RouteDest where
  | topicBuffer (topic : String)
  | unknownLog
deriving DecidableEq

/-- `topic = data.get("topic", "unknown"); if topic == "unknown":
log_unknown_message(data) else save_message(channel_type, topic, data)`.
The argument is the frame's `topic` field, `none` when absent. -/
def routeFrame (topicField : Option String) : RouteDest :=
  let topic := topicField.getD "unknown"
  if topic = "unknown" then .unknownLog else .topicBuffer topic

/-! ### C10 -/

/-- C10: a structurally valid frame is routed to a topic buffer exactly
when it carries a `topic` field different from the literal string
"unknown"; a frame without a `topic` field and a frame whose `topic`
field equals "unknown" are both sent to the unknown-message log and
treated identically, so the sentinel value collides with a
legitimately-named topic. -/
theorem routeFrame_sentinel_dispatch (t : String) (h : t ≠ "unknown") :
    routeFrame (some t) = RouteDest.topicBuffer t
    ∧ routeFrame none = RouteDest.unknownLog
    ∧ routeFrame (some "unknown") = RouteDest.unknownLog
    ∧ routeFrame none = routeFrame (some "unknown")
    ∧ ∀ s : Option String,
        (∃ u, routeFrame s = RouteDest.topicBuffer u)
          ↔ ∃ u, s = some u ∧ u ≠ "unknown" := by
  refine ⟨by simp [routeFrame, h], rfl, rfl, rfl, ?_⟩
  intro s
  cases s with
  | none =>
    simp only [routeFrame, Option.getD_none, if_pos rfl]
    constructor
    · rintro ⟨u, hu⟩; cases hu
    · rintro ⟨u, hu, _⟩; cases hu
  | some v =>
    by_cases hv : v = "unknown"
    · subst hv
      simp only [routeFrame, Option.getD_some, if_pos rfl]
      constructor
      · rintro ⟨u, hu⟩; cases hu
      · rintro ⟨u, hu, hne⟩
        cases hu; exact absurd rfl hne
    · simp only [routeFrame, Option.getD_some, if_neg hv]
      constructor
      · rintro ⟨u, _⟩; exact ⟨v, rfl, hv⟩
      · rintro ⟨u, _, _⟩; exact ⟨v, rfl⟩

theorem routeFrame_sentinel_dispatch_witness :
    "orderbook.1.BTCUSDT" ≠ "unknown"
    ∧ (routeFrame (some "orderbook.1.BTCUSDT")
        = RouteDest.topicBuffer "orderbook.1.BTCUSDT"
      ∧ routeFrame none = RouteDest.unknownLog
      ∧ routeFrame (some "unknown") = RouteDest.unknownLog
      ∧ routeFrame none = routeFrame (some "unknown")
      ∧ ∀ s : Option String,
          (∃ u, routeFrame s = RouteDest.topicBuffer u)
            ↔ ∃ u, s = some u ∧ u ≠ "unknown") :=
  ⟨by decide, routeFrame_sentinel_dispatch "orderbook.1.BTCUSDT" (by decide)⟩

/-! ### Compactor: `compress_old_csv_files` and helpers -/

/-- Python `s.startswith(p)`. -/
def strStartsWith (s p : String) : Bool :=
  p.data.isPrefixOf s.data

/-- Python `s.endswith(p)`. -/
def strEndsWith (s p : String) : Bool :=
  p.data.isSuffixOf s.data

/-- The `filename.endswith(".csv")` filter of `get_all_csv_files`.  Files
are modelled by their basenames, which is what both the extension test
and the date test inspect. -/
def getAllCsvFiles (files : List String) : List String :=
  files.filter (fun f => strEndsWith f ".csv")

/-- Compactor eligibility as computed by `compress_old_csv_files`:
still carries the uncompressed `.csv` extension and its basename does not
start with today's date. -/
def isOldCsv (today f : String) : Bool :=
  strEndsWith f ".csv" && !(strStartsWith f today)

/-- `old_csv_files = [f for f in csv_files if not basename(f).startswith(utc_date)]`. -/
def oldCsvFiles (today : String) (files : List String) : List String :=
  (getAllCsvFiles files).filter (fun f => !(strStartsWith f today))

/-- Effect of one successful Compactor pass on a directory snapshot:
every eligible file is compressed to a sibling `.gz` path and the
original removed; everything else is untouched. -/
def compressOldCsvFilesPass (today : String) (files : List String) :
    List String :=
  files.map (fun f => if isOldCsv today f then f ++ ".gz" else f)

theorem oldCsvFiles_eq_filter (today : String) (files : List String) :
    oldCsvFiles today files = files.filter (isOldCsv today) := by
  unfold oldCsvFiles getAllCsvFiles isOldCsv
  induction files with
  | nil => rfl
  | cons f t ih =>
    by_cases h : strEndsWith f ".csv" = true
    · by_cases h2 : strStartsWith f today = true <;>
        simp [List.filter_cons, h, h2, ih]
    · simp only [Bool.not_eq_true] at h
      simp [List.filter_cons, h, ih]

theorem suffix_getLast? {α : Type} {l₁ l₂ : List α} (h : l₁ <:+ l₂)
    (hne : l₁ ≠ []) : l₂.getLast? = l₁.getLast? := by
  obtain ⟨t, rfl⟩ := h
  exact List.getLast?_append_of_ne_nil t hne

theorem strEndsWith_gz_csv (y : String) :
    strEndsWith (y ++ ".gz") ".csv" = false := by
  unfold strEndsWith
  rw [Bool.eq_false_iff]
  intro hcon
  rw [List.isSuffixOf_iff_suffix] at hcon
  have hlast := suffix_getLast? hcon (by decide)
  rw [String.data_append] at hlast
  rw [List.getLast?_append_of_ne_nil y.data (by decide)] at hlast
  simp at hlast

theorem strStartsWith_append_iff (d rest today : String)
    (h : d.data.length = today.data.length) :
    strStartsWith (d ++ rest) today = true ↔ d = today := by
  unfold strStartsWith
  rw [List.isPrefixOf_iff_prefix]
  constructor
  · intro hp
    rw [List.prefix_iff_eq_take] at hp
    rw [String.data_append, ← h, List.take_left] at hp
    exact (String.ext hp.symm)
  · intro hp
    subst hp
    rw [String.data_append]
    exact List.prefix_append d.data rest.data

theorem isOldCsv_pass_false (today f : String) :
    isOldCsv today (if isOldCsv today f then f ++ ".gz" else f) = false := by
  by_cases h : isOldCsv today f = true
  · rw [if_pos h]
    unfold isOldCsv
    rw [strEndsWith_gz_csv]
    rfl
  · rw [Bool.not_eq_true] at h
    rw [if_neg (by simp [h]), h]

/-! ### C5 -/

/-- C5: Compactor selection and idempotence.  For well-formed basenames
`{date}_{rest}.csv` (dates are 10 characters, `YYYY-MM-DD`), a file is
selected exactly when its embedded date differs from today's; an
already compressed `{x}.csv.gz` file is never selected.  After one pass
over a snapshot, a second selection finds nothing and a second pass
leaves the file set unchanged: compressed files are never
double-compressed. -/
theorem compactor_selection_and_idempotence (today : String)
    (ht : today.data.length = 10) :
    (∀ d rest, d.data.length = 10 →
        (isOldCsv today (d ++ "_" ++ rest ++ ".csv") = true ↔ d ≠ today))
    ∧ (∀ x, isOldCsv today (x ++ ".csv.gz") = false)
    ∧ (∀ files,
        oldCsvFiles today (compressOldCsvFilesPass today files) = []
        ∧ compressOldCsvFilesPass today (compressOldCsvFilesPass today files)
            = compressOldCsvFilesPass today files) := by
  refine ⟨?_, ?_, ?_⟩
  · intro d rest hd
    unfold isOldCsv
    have hends : strEndsWith (d ++ "_" ++ rest ++ ".csv") ".csv" = true := by
      unfold strEndsWith
      rw [List.isSuffixOf_iff_suffix, String.data_append]
      exact List.suffix_append _ _
    have hstart := strStartsWith_append_iff d ("_" ++ (rest ++ ".csv")) today
      (by rw [hd, ht])
    have hassoc : d ++ "_" ++ rest ++ ".csv" = d ++ ("_" ++ (rest ++ ".csv")) := by
      rw [String.append_assoc, String.append_assoc]
    rw [hends, Bool.true_and, Bool.not_eq_true']
    rw [hassoc, Bool.eq_false_iff]
    exact not_congr hstart
  · intro x
    have hx : (".csv.gz" : String) = ".csv" ++ ".gz" := by decide
    rw [hx, ← String.append_assoc]
    unfold isOldCsv
    rw [strEndsWith_gz_csv]
    rfl
  · intro files
    constructor
    · rw [oldCsvFiles_eq_filter]
      rw [List.filter_eq_nil_iff]
      intro a ha
      rw [compressOldCsvFilesPass, List.mem_map] at ha
      obtain ⟨f, _, rfl⟩ := ha
      simp [isOldCsv_pass_false today f]
    · unfold compressOldCsvFilesPass
      rw [List.map_map]
      refine List.map_congr_left ?_
      intro f _
      simp only [Function.comp_apply]
      rw [if_neg (by simp [isOldCsv_pass_false today f])]

theorem compactor_selection_and_idempotence_witness :
    ("2024-01-02" : String).data.length = 10
    ∧ ((∀ d rest, d.data.length = 10 →
          (isOldCsv "2024-01-02" (d ++ "_" ++ rest ++ ".csv") = true
            ↔ d ≠ "2024-01-02"))
      ∧ (∀ x, isOldCsv "2024-01-02" (x ++ ".csv.gz") = false)
      ∧ (∀ files,
          oldCsvFiles "2024-01-02"
              (compressOldCsvFilesPass "2024-01-02" files) = []
          ∧ compressOldCsvFilesPass "2024-01-02"
                (compressOldCsvFilesPass "2024-01-02" files)
              = compressOldCsvFilesPass "2024-01-02" files)) :=
  ⟨by decide, compactor_selection_and_idempotence "2024-01-02" (by decide)⟩

/-! ### C6 -/

/-- One `compress_and_remove_file(csv_path)` call acting on a snapshot.
`compressOk` is whether the gzip copy in `compress_file` succeeds,
`removeOk` whether `os.remove` succeeds.  Both `compress_file` and
`compress_file_async` catch their own exceptions and return normally, so
control always reaches `os.remove`; the outer handler in
`compress_and_remove_file` can only be reached by a failure of
`os.remove` itself. -/
def compressAndRemoveFile (compressOk removeOk : Bool)
    (files : List String) (f : String) : List String :=
  let files1 := if compressOk then files ++ [f ++ ".gz"] else files
  if removeOk then files1.filter (fun g => !(g == f)) else files1

/-- C6: evaluation of `compress_and_remove_file` at a failing input.
When compression of `2024-01-01_orderbook.1.BTCUSDT.csv` fails (say the
gzip write raises OSError), the original is nevertheless deleted and no
compressed copy exists — the snapshot is left empty, losing the file's
data — whereas on a successful compression the original is replaced by
its `.gz` sibling.  The claim (original kept when compression fails) is
the intent of the outer try/except in `compress_and_remove_file`, which
the inner exception handlers defeat. -/
theorem compressAndRemoveFile_eval :
    compressAndRemoveFile false true
        ["2024-01-01_orderbook.1.BTCUSDT.csv"]
        "2024-01-01_orderbook.1.BTCUSDT.csv" = []
    ∧ compressAndRemoveFile true true
        ["2024-01-01_orderbook.1.BTCUSDT.csv"]
        "2024-01-01_orderbook.1.BTCUSDT.csv"
        = ["2024-01-01_orderbook.1.BTCUSDT.csv.gz"] := by
  constructor <;> rfl

/-! ### Retention Enforcer: `enforce_folder_size_limit` -/

/-- A file as listed by `get_all_files_with_mtime`: path, modification
time, and the size `os.path.getsize` reports at deletion time. -/
structure FileEnt where
  path : String
  mtime : Nat
  size : Int
deriving DecidableEq

/-- Stable insertion into an mtime-sorted list (new element before
equal keys, matching the stability of `list.sort(key=mtime)`). -/
def insertByMtime (f : FileEnt) : List FileEnt → List FileEnt
  | [] => [f]
  | g :: gs => if g.mtime < f.mtime then g :: insertByMtime f gs
               else f :: g :: gs

/-- `file_paths.sort(key=lambda x: x[1])`: sort by modification time,
oldest first. -/
def sortByMtime : List FileEnt → List FileEnt
  | [] => []
  | f :: fs => insertByMtime f (sortByMtime fs)

def sumSizes (fs : List FileEnt) : Int :=
  (fs.map FileEnt.size).sum

/-- The deletion loop: `for file_path, _ in file_paths: ... os.remove;
current_folder_size -= file_size; if current_folder_size <= LIMIT:
break`.  Returns the final counter value and the deleted files in
deletion order (every deletion succeeding). -/
def deleteFilesLoop (limit : Int) : Int → List FileEnt → Int × List FileEnt
  | total, [] => (total, [])
  | total, f :: rest =>
      if total - f.size ≤ limit then (total - f.size, [f])
      else
        let p := deleteFilesLoop limit (total - f.size) rest
        (p.1, f :: p.2)

/-- One pass of `enforce_folder_size_limit`: nothing happens unless the
tracked total exceeds the limit; otherwise all files are listed, sorted
by mtime ascending, and deleted oldest-first until the running total is
at or below the limit. -/
def enforceFolderSizeLimitPass (limit total : Int) (files : List FileEnt) :
    Int × List FileEnt :=
  if total ≤ limit then (total, [])
  else deleteFilesLoop limit total (sortByMtime files)

theorem deleteFilesLoop_total (limit : Int) :
    ∀ (fs : List FileEnt) (total : Int),
      (deleteFilesLoop limit total fs).1
        = total - sumSizes (deleteFilesLoop limit total fs).2 := by
  intro fs
  induction fs with
  | nil => intro total; simp [deleteFilesLoop, sumSizes]
  | cons f rest ih =>
    intro total
    unfold deleteFilesLoop
    split_ifs with h
    · simp [sumSizes]
    · simp only [sumSizes, List.map_cons, List.sum_cons]
      have := ih (total - f.size)
      simp only [sumSizes] at this
      omega

theorem deleteFilesLoop_isPrefix (limit : Int) :
    ∀ (fs : List FileEnt) (total : Int),
      (deleteFilesLoop limit total fs).2 <+: fs := by
  intro fs
  induction fs with
  | nil => intro total; simp [deleteFilesLoop]
  | cons f rest ih =>
    intro total
    unfold deleteFilesLoop
    split_ifs with h
    · exact ⟨rest, rfl⟩
    · simp only []
      exact (List.cons_prefix_cons).mpr ⟨rfl, ih (total - f.size)⟩

theorem deleteFilesLoop_stops (limit : Int) :
    ∀ (fs : List FileEnt) (total : Int),
      (deleteFilesLoop limit total fs).2 = fs
        ∨ (deleteFilesLoop limit total fs).1 ≤ limit := by
  intro fs
  induction fs with
  | nil => intro total; left; simp [deleteFilesLoop]
  | cons f rest ih =>
    intro total
    unfold deleteFilesLoop
    split_ifs with h
    · right; exact h
    · rcases ih (total - f.size) with h2 | h2
      · left; simp [h2]
      · right; exact h2

theorem deleteFilesLoop_minimal (limit : Int) :
    ∀ (fs : List FileEnt) (total : Int), limit < total →
      ∀ q, q <+: (deleteFilesLoop limit total fs).2
        → q ≠ (deleteFilesLoop limit total fs).2
        → limit < total - sumSizes q := by
  intro fs
  induction fs with
  | nil =>
    intro total htot q hq hne
    simp only [deleteFilesLoop] at hq hne
    rw [List.prefix_nil] at hq
    exact absurd hq hne
  | cons f rest ih =>
    intro total htot q hq hne
    unfold deleteFilesLoop at hq hne
    split_ifs at hq hne with h
    · cases q with
      | nil => simpa [sumSizes]
      | cons a t =>
        rw [List.cons_prefix_cons] at hq
        obtain ⟨rfl, ht⟩ := hq
        rw [List.prefix_nil] at ht
        subst ht
        exact absurd rfl hne
    · cases q with
      | nil => simpa [sumSizes]
      | cons a t =>
        simp only [] at hq hne
        rw [List.cons_prefix_cons] at hq
        obtain ⟨rfl, ht⟩ := hq
        have hne2 : t ≠ (deleteFilesLoop limit (total - a.size) rest).2 := by
          intro hcon; exact hne (by rw [hcon])
        have := ih (total - a.size) (by omega) t ht hne2
        simp only [sumSizes, List.map_cons, List.sum_cons] at *
        omega

/-! ### C7 -/

/-- C7 counterexample: the spec scenario (budget 1000 bytes, three
500-byte files of strictly increasing age) does not delete the two
oldest files.  After deleting the oldest file the running total is
1000 ≤ 1000, so the loop breaks: exactly one file is deleted and two
files (1000 bytes) remain, not one file and 500 bytes. -/
theorem retention_scenario_deletes_one_not_two :
    enforceFolderSizeLimitPass 1000 1500
        [⟨"2024-01-01_a.csv", 1, 500⟩, ⟨"2024-01-02_b.csv", 2, 500⟩,
         ⟨"2024-01-03_c.csv", 3, 500⟩]
      = (1000, [⟨"2024-01-01_a.csv", 1, 500⟩])
    ∧ (enforceFolderSizeLimitPass 1000 1500
        [⟨"2024-01-01_a.csv", 1, 500⟩, ⟨"2024-01-02_b.csv", 2, 500⟩,
         ⟨"2024-01-03_c.csv", 3, 500⟩]).2.length ≠ 2 := by
  constructor <;> decide

/-- C7 amended: the enforcer sorts all files by modification time
ascending and deletes them oldest-first, decrementing the running total
by each deleted size, stopping as soon as the total is at or below the
budget; the deleted files form a minimal prefix of the mtime-sorted list
(every proper prefix leaves the total above budget), and either the total
ends at or below budget or every file was deleted.  In the spec's
scenario (budget 1000, three 500-byte files of increasing age) this
deletes exactly the single oldest file, leaving two files and a total of
1000 bytes — not two files and 500 bytes as claimed. -/
theorem retention_deletes_oldest_until_under_budget (limit total : Int)
    (files : List FileEnt) (h : limit < total) :
    (enforceFolderSizeLimitPass limit total files).2 <+: sortByMtime files
    ∧ (enforceFolderSizeLimitPass limit total files).1
        = total - sumSizes (enforceFolderSizeLimitPass limit total files).2
    ∧ ((enforceFolderSizeLimitPass limit total files).2 = sortByMtime files
        ∨ (enforceFolderSizeLimitPass limit total files).1 ≤ limit)
    ∧ ∀ q, q <+: (enforceFolderSizeLimitPass limit total files).2
        → q ≠ (enforceFolderSizeLimitPass limit total files).2
        → limit < total - sumSizes q := by
  have hnot : ¬ total ≤ limit := by omega
  unfold enforceFolderSizeLimitPass
  rw [if_neg hnot]
  exact ⟨deleteFilesLoop_isPrefix limit (sortByMtime files) total,
    deleteFilesLoop_total limit (sortByMtime files) total,
    deleteFilesLoop_stops limit (sortByMtime files) total,
    deleteFilesLoop_minimal limit (sortByMtime files) total h⟩

theorem retention_deletes_oldest_until_under_budget_witness :
    (1000 : Int) < 1500
    ∧ ((enforceFolderSizeLimitPass 1000 1500
          [⟨"2024-01-01_a.csv", 1, 500⟩, ⟨"2024-01-02_b.csv", 2, 500⟩,
           ⟨"2024-01-03_c.csv", 3, 500⟩]).2
        <+: sortByMtime
          [⟨"2024-01-01_a.csv", 1, 500⟩, ⟨"2024-01-02_b.csv", 2, 500⟩,
           ⟨"2024-01-03_c.csv", 3, 500⟩]
      ∧ (enforceFolderSizeLimitPass 1000 1500
          [⟨"2024-01-01_a.csv", 1, 500⟩, ⟨"2024-01-02_b.csv", 2, 500⟩,
           ⟨"2024-01-03_c.csv", 3, 500⟩]).1
          = 1500 - sumSizes (enforceFolderSizeLimitPass 1000 1500
            [⟨"2024-01-01_a.csv", 1, 500⟩, ⟨"2024-01-02_b.csv", 2, 500⟩,
             ⟨"2024-01-03_c.csv", 3, 500⟩]).2
      ∧ ((enforceFolderSizeLimitPass 1000 1500
            [⟨"2024-01-01_a.csv", 1, 500⟩, ⟨"2024-01-02_b.csv", 2, 500⟩,
             ⟨"2024-01-03_c.csv", 3, 500⟩]).2
          = sortByMtime
            [⟨"2024-01-01_a.csv", 1, 500⟩, ⟨"2024-01-02_b.csv", 2, 500⟩,
             ⟨"2024-01-03_c.csv", 3, 500⟩]
          ∨ (enforceFolderSizeLimitPass 1000 1500
              [⟨"2024-01-01_a.csv", 1, 500⟩, ⟨"2024-01-02_b.csv", 2, 500⟩,
               ⟨"2024-01-03_c.csv", 3, 500⟩]).1 ≤ 1000)
      ∧ ∀ q, q <+: (enforceFolderSizeLimitPass 1000 1500
            [⟨"2024-01-01_a.csv", 1, 500⟩, ⟨"2024-01-02_b.csv", 2, 500⟩,
             ⟨"2024-01-03_c.csv", 3, 500⟩]).2
          → q ≠ (enforceFolderSizeLimitPass 1000 1500
              [⟨"2024-01-01_a.csv", 1, 500⟩, ⟨"2024-01-02_b.csv", 2, 500⟩,
               ⟨"2024-01-03_c.csv", 3, 500⟩]).2
          → 1000 < 1500 - sumSizes q) :=
  ⟨by decide,
   retention_deletes_oldest_until_under_budget 1000 1500
     [⟨"2024-01-01_a.csv", 1, 500⟩, ⟨"2024-01-02_b.csv", 2, 500⟩,
      ⟨"2024-01-03_c.csv", 3, 500⟩] (by decide)⟩

/-! ### C8 -/

/-- C8 counterexample: `get_all_files_with_mtime` lists every file and
`enforce_folder_size_limit` applies no date-based exclusion.  With the
current UTC date 2024-01-02, a snapshot over budget whose oldest-mtime
file is today's active output file: the pass deletes exactly that file,
so a file whose embedded date equals the current date is not excluded
from eviction. -/
theorem retention_evicts_todays_file :
    (enforceFolderSizeLimitPass 1000 1200
        [⟨"2024-01-02_orderbook.1.BTCUSDT.csv", 10, 600⟩,
         ⟨"2024-01-01_orderbook.1.BTCUSDT.csv", 20, 600⟩]).2
      = [⟨"2024-01-02_orderbook.1.BTCUSDT.csv", 10, 600⟩]
    ∧ strStartsWith "2024-01-02_orderbook.1.BTCUSDT.csv" "2024-01-02"
      = true := by
  constructor <;> decide

/-- C8 amended: the Retention Enforcer applies no date-based exclusion:
deletion candidates are all files sorted by modification time, including
today's active output files, and such a file is deleted whenever it is
oldest.  Even a snapshot consisting solely of files whose embedded date
is the current UTC date is evicted from when over budget. -/
theorem retention_has_no_date_exclusion :
    ([⟨"2024-01-02_a.csv", 5, 700⟩,
      (⟨"2024-01-02_b.csv", 7, 700⟩ : FileEnt)].all
        (fun f => strStartsWith f.path "2024-01-02")) = true
    ∧ (enforceFolderSizeLimitPass 1000 1400
        [⟨"2024-01-02_a.csv", 5, 700⟩, ⟨"2024-01-02_b.csv", 7, 700⟩]).2
      = [⟨"2024-01-02_a.csv", 5, 700⟩] := by
  constructor <;> decide

/-! ### C9 -/

/-- C9 counterexample: with the counter at 500 bytes, one record "A"
arrives and is flushed successfully on the idle timeout, appending
`"A\n"` (2 bytes) to the csv file; the counter is still 500, not 502:
`write_buffer_to_file` never touches `current_folder_size`, so the
ledger is not incremented by the bytes written on a flush. -/
theorem retention_ledger_not_incremented_on_flush :
    (processQueueRun cfg0 (initTB String "2024-01-01" 500)
        [.msg "2024-01-01" "A" true true,
         .timeout "2024-01-01" true true]).writes
      = [(csvPath cfg0 "2024-01-01", ["A"])]
    ∧ (writeContent ["A"]).length = 2
    ∧ (processQueueRun cfg0 (initTB String "2024-01-01" 500)
        [.msg "2024-01-01" "A" true true,
         .timeout "2024-01-01" true true]).folderSize = 500
    ∧ (processQueueRun cfg0 (initTB String "2024-01-01" 500)
        [.msg "2024-01-01" "A" true true,
         .timeout "2024-01-01" true true]).folderSize ≠ 500 + 2 := by
  refine ⟨by decide, by decide, by decide, by decide⟩

theorem processQueueStep_folderSize {R : Type} (cfg : TBConfig)
    (s : TBState R) (e : TBEvent R) :
    (processQueueStep cfg s e).folderSize = s.folderSize := by
  have hr : ∀ (d : String) (ok : Bool),
      (rolloverCheck cfg d ok s).folderSize = s.folderSize := by
    intro d ok
    unfold rolloverCheck
    split_ifs <;> rfl
  cases e with
  | msg date r okRoll okWrite =>
    simp only [processQueueStep]
    split_ifs with h
    · simp only [writeBufferToFile]
      exact hr date okRoll
    · exact hr date okRoll
  | timeout date okRoll okWrite =>
    simp only [processQueueStep]
    split_ifs with h
    · exact hr date okRoll
    · simp only [writeBufferToFile]
      exact hr date okRoll

/-- C9 amended: the byte counter `current_folder_size` is initialized by
a full scan at startup and decremented by the freed size on every
Retention Enforcer deletion, but it is never incremented on a Topic
Buffer flush (the write path leaves it untouched) and it is never
reconciled again after startup, so it drifts below the true total as new
data is written.  First conjunct: no iteration of `process_queue`
changes the counter.  Second conjunct: an enforcer pass decrements the
counter by exactly the sizes of the files it deleted. -/
theorem retention_ledger_decrement_only :
    (∀ (R : Type) (cfg : TBConfig) (s : TBState R) (e : TBEvent R),
        (processQueueRun cfg s [e]).folderSize = s.folderSize)
    ∧ (∀ (limit total : Int) (files : List FileEnt),
        (enforceFolderSizeLimitPass limit total files).1
          = total
            - sumSizes (enforceFolderSizeLimitPass limit total files).2) := by
  constructor
  · intro R cfg s e
    exact processQueueStep_folderSize cfg s e
  · intro limit total files
    unfold enforceFolderSizeLimitPass
    split_ifs with h
    · simp [sumSizes]
    · exact deleteFilesLoop_total limit (sortByMtime files) total

end Bybit
